import Mathlib

/-!
# ghorg, `scm/github.go`: repository discovery and normalisation

A shallow embedding of the GitHub adapter of ghorg: the two paginated
enumeration loops (`GetOrgRepos`, `GetUserRepos`), the client constructor
(`NewClient`), the token splicer (`addTokenToHTTPSCloneURL`) and the
filter/normaliser loop (`filter`).

Conventions of the embedding
* Go strings are lists of characters (`Str`).
* A Go pointer field (`*bool`, `*string`) is an `Option`; dereferencing `nil`,
  or indexing a slice out of range, is a run-time panic and is modelled by the
  result `none`.
* `os.Getenv` is a record holding the value of every variable that the file
  reads; an unset variable reads as the empty string, as in Go.
* Network calls are a transition function on an explicit provider state.
* The elements of a `[]*github.Repository` slice are records, not `nil`: the
  listing calls of go-github build them by decoding the platform's answer.
* The functions of the Go standard library (`strings.Split`,
  `strings.Replace`) and the types of go-github are rendered after their
  documented behaviour, restricted to what `github.go` uses.
-/

namespace Ghorg

/-- Go `string`. -/
abbrev Str := List Char

/-! ## The `strings` package -/

namespace strings

/-- Go `strings.Index(s, sep)`: the position of the leftmost occurrence of
`sep` in `s`, `none` standing for `-1`. -/
def Index (s sep : Str) : Option Nat :=
  if sep.isPrefixOf s then some 0
  else
    match s with
    | [] => none
    | _ :: t => (Index t sep).map (· + 1)

/-- Go `strings.Contains(s, substr)`, which is `Index(s, substr) >= 0`. -/
def Contains (s substr : Str) : Bool := (Index s substr).isSome

/-- The loop of Go `genSplit` for a non-empty separator: cut at the leftmost
occurrence of `sep`, continue behind it, and end with the remainder. The first
argument bounds the number of cuts. -/
def splitLoop : Nat → Str → Str → List Str
  | 0, s, _ => [s]
  | n + 1, s, sep =>
    match Index s sep with
    | none => [s]
    | some m => s.take m :: splitLoop n (s.drop (m + sep.length)) sep

/-- Go `strings.Split(s, sep)` for a non-empty `sep`. Every cut consumes at
least one character, so `s.length` cuts are always enough. -/
def Split (s sep : Str) : List Str := splitLoop s.length s sep

/-- Go `strings.Replace(s, old, new, 1)` for a non-empty `old`: only the
leftmost occurrence of `old` is replaced; without one `s` is returned. -/
def Replace1 (s old new : Str) : Str :=
  match Index s old with
  | none => s
  | some m => s.take m ++ new ++ s.drop (m + old.length)

end strings

/-- The scheme text `"https://"` used as separator by the token splicer. -/
def httpsScheme : Str := "https://".toList

/-- Method `addTokenToHTTPSCloneURL` of `Github`: `splitURL[1]` panics when
the split has a single piece. -/
def addTokenToHTTPSCloneURL (url token : Str) : Option Str :=
  let splitURL := strings.Split url httpsScheme
  (splitURL.get? 1).map fun piece => "https://".toList ++ token ++ "@".toList ++ piece

/-! ## Data model -/

/-- The fields of go-github `User` that the adapter reads. -/
structure User where
  Login : Option Str := none
  Type_ : Option Str := none
deriving DecidableEq

/-- Go-github getter `(*User).GetLogin`, safe on a `nil` receiver and on a
`nil` field. -/
def GetLogin (u : Option User) : Str :=
  match u with
  | none => []
  | some u => u.Login.getD []

/-- The fields of go-github `Repository` (a raw record) that the adapter
reads. Pointer fields are options; `Topics` is a slice. -/
structure Repository where
  Name : Option Str := none
  Archived : Option Bool := none
  Fork : Option Bool := none
  Topics : List Str := []
  DefaultBranch : Option Str := none
  CloneURL : Option Str := none
  SSHURL : Option Str := none
  HasWiki : Option Bool := none
  Owner : Option User := none
deriving DecidableEq

/-- Go-github getter `(*Repository).GetDefaultBranch`. -/
def Repository.GetDefaultBranch (r : Repository) : Str := r.DefaultBranch.getD []

/-- Go-github getter `(*Repository).GetHasWiki`. -/
def Repository.GetHasWiki (r : Repository) : Bool := r.HasWiki.getD false

/-- Modelled from the spec: the type `Repo` of package `scm` is declared in
another file of the repository. Its fields are the five of the data model of
the specification, which are also the ones `filter` assigns. The defaults are
Go zero values, so `({} : Repo)` is `Repo{}`. -/
structure Repo where
  Name : Str := []
  URL : Str := []
  CloneURL : Str := []
  CloneBranch : Str := []
  IsWiki : Bool := false
deriving DecidableEq

/-- The process environment as seen through `os.Getenv`: one field per
variable read in `github.go`; an unset variable is the empty string. -/
structure Env where
  GHORG_SKIP_ARCHIVED : Str := []
  GHORG_SKIP_FORKS : Str := []
  GHORG_BRANCH : Str := []
  GHORG_CLONE_PROTOCOL : Str := []
  GHORG_GITHUB_TOKEN : Str := []
  GHORG_CLONE_WIKI : Str := []
  GHORG_SCM_BASE_URL : Str := []
deriving DecidableEq

/-- Go `error` values are kept as their message. -/
abbrev GoError := Str

/-! ## `filter`

`hasMatchingTopic` is defined in another file of package `scm`; it is a
parameter `topic` of the embedding. -/

/-- Lines 169-177 of `filter`: the branch written to `r.CloneBranch`. -/
def cloneBranch (env : Env) (ghRepo : Repository) : Str :=
  if env.GHORG_BRANCH = [] then
    let defaultBranch := ghRepo.GetDefaultBranch
    let defaultBranch := if defaultBranch = [] then "master".toList else defaultBranch
    defaultBranch
  else
    env.GHORG_BRANCH

/-- Lines 189-196 of `filter`: the wiki entity built from the parent `r`. -/
def wikiOf (r : Repo) : Repo :=
  let wiki : Repo := {}
  let wiki := { wiki with IsWiki := true }
  let wiki := { wiki with CloneURL := strings.Replace1 r.CloneURL ".git".toList ".wiki.git".toList }
  let wiki := { wiki with URL := strings.Replace1 r.URL ".git".toList ".wiki.git".toList }
  { wiki with CloneBranch := "master".toList }

/-- Lines 149-153 of `filter`: whether the record is skipped as archived;
`*ghRepo.Archived` is read only when `GHORG_SKIP_ARCHIVED` is `"true"`. -/
def skipArchived (env : Env) (ghRepo : Repository) : Option Bool :=
  if env.GHORG_SKIP_ARCHIVED = "true".toList then ghRepo.Archived else some false

/-- Lines 155-159 of `filter`: whether the record is skipped as a fork. -/
def skipFork (env : Env) (ghRepo : Repository) : Option Bool :=
  if env.GHORG_SKIP_FORKS = "true".toList then ghRepo.Fork else some false

/-- Lines 165-187 of `filter`: the entity `r` that is appended for a record
that was not skipped. -/
def normalize (env : Env) (ghRepo : Repository) : Option Repo :=
  ghRepo.Name.bind fun name =>
  let r : Repo := {}
  let r := { r with Name := name }
  let r := { r with CloneBranch := cloneBranch env ghRepo }
  if env.GHORG_CLONE_PROTOCOL = "https".toList then
    ghRepo.CloneURL.bind fun cloneURL =>
    (addTokenToHTTPSCloneURL cloneURL env.GHORG_GITHUB_TOKEN).map fun withToken =>
    { r with CloneURL := withToken, URL := cloneURL }
  else
    ghRepo.SSHURL.map fun sshURL => { r with CloneURL := sshURL, URL := sshURL }

/-- One iteration of the loop of `filter` over `allRepos`: from the slice
`repoData` built so far and the record `ghRepo` to the slice after the
iteration (`continue` returns it unchanged); `none` is a panic. -/
def filterIter (topic : List Str → Bool) (env : Env) (repoData : List Repo)
    (ghRepo : Repository) : Option (List Repo) :=
  (skipArchived env ghRepo).bind fun archived =>
  if archived then some repoData else
  (skipFork env ghRepo).bind fun fork =>
  if fork then some repoData else
  if !topic ghRepo.Topics then some repoData else
  (normalize env ghRepo).map fun r =>
  let repoData := repoData ++ [r]
  if ghRepo.GetHasWiki && env.GHORG_CLONE_WIKI = "true".toList then
    repoData ++ [wikiOf r]
  else repoData

/-- The loop of `filter`, started from the slice `repoData`. -/
def filterLoop (topic : List Str → Bool) (env : Env) :
    List Repo → List Repository → Option (List Repo)
  | repoData, [] => some repoData
  | repoData, ghRepo :: rest =>
    (filterIter topic env repoData ghRepo).bind fun repoData => filterLoop topic env repoData rest

/-- Method `filter` of `Github`: `repoData` starts as the nil slice. -/
def filter (topic : List Str → Bool) (env : Env) (allRepos : List Repository) :
    Option (List Repo) :=
  filterLoop topic env [] allRepos

/-! ## The platform and the enumeration loops -/

/-- Go-github `ListOptions`; Go `int` is an integer. -/
structure ListOptions where
  Page : Int := 0
  PerPage : Int := 0
deriving DecidableEq

/-- Go-github `RepositoryListByOrgOptions`. -/
structure RepositoryListByOrgOptions where
  Type_ : Str := []
  ListOptions : ListOptions := {}
deriving DecidableEq

/-- Go-github `RepositoryListOptions`. -/
structure RepositoryListOptions where
  Visibility : Str := []
  ListOptions : ListOptions := {}
deriving DecidableEq

/-- The field of go-github `Response` that the loops read. -/
structure Response where
  NextPage : Int := 0
deriving DecidableEq

/-- What a listing call returns: `(repos, resp, err)` with `err == nil`, or an
error. -/
abbrev Listing := Except GoError (List Repository × Response)

/-- The go-github client together with the service behind it, as transitions
on a state `σ` (the `*github.Client` handle is shared, so its fields belong to
the state). `UsersGet` yields the `*User` result only, `nil` included, since
`GetUserRepos` discards the response and the error; `SetBaseURL` is the
assignment `c.BaseURL, _ = url.Parse(...)`. -/
structure Platform (σ : Type) where
  ListByOrg : σ → Str → RepositoryListByOrgOptions → σ × Listing
  List : σ → Str → RepositoryListOptions → σ × Listing
  UsersGet : σ → Str → σ × Option User
  SetBaseURL : σ → Str → σ

/-- The adapter `Github`: the embedded client lives in the platform state. -/
structure Github where
  perPage : Int := 0
deriving DecidableEq

/-- How a call of the adapter ends. -/
inductive Outcome (α : Type) where
  | ok (val : α)
  | error (err : GoError)
  | panicked
deriving DecidableEq

/-- The observable course of one enumeration loop: the platform state it
leaves, the page requests it issued (oldest first), the notices handed to
`colorlog.PrintSubtleInfo`, and the accumulated `allRepos` or the failure. -/
structure Fetch (σ ω : Type) where
  state : σ
  requests : List (Str × ω)
  notices : List Str
  outcome : Outcome (List Repository)

/-- The notice printed by `GetOrgRepos` for large organisations. -/
def manyReposNotice : Str :=
  "\nEverything is okay, the org just has a lot of repos...".toList

/-- The notice printed by `GetUserRepos` when cloning the own account. -/
def ownReposNotice : Str :=
  ("\nCloning all your public/private repos. This process may take a bit longer " ++
    "than other clones, please be patient...").toList

/-- The `for` loop of `GetOrgRepos` (lines 43-59). The loop has no bound of
its own; the first argument bounds the number of iterations and `none` means
the bound was reached. Go's `%` and the remainder used here agree on whether
the result is zero. -/
def orgLoop {σ : Type} (P : Platform σ) (targetOrg : Str) :
    Nat → σ → RepositoryListByOrgOptions → List Repository →
    List (Str × RepositoryListByOrgOptions) → List Str →
    Option (Fetch σ RepositoryListByOrgOptions)
  | 0, _, _, _, _, _ => none
  | fuel + 1, s, opt, allRepos, requests, notices =>
    let requests := requests ++ [(targetOrg, opt)]
    match P.ListByOrg s targetOrg opt with
    | (s, .error err) => some ⟨s, requests, notices, .error err⟩
    | (s, .ok (repos, resp)) =>
      let allRepos := allRepos ++ repos
      if resp.NextPage = 0 then some ⟨s, requests, notices, .ok allRepos⟩
      else
        let notices :=
          if opt.ListOptions.Page % 12 = 0 ∧ opt.ListOptions.Page ≠ 0 then
            notices ++ [manyReposNotice]
          else notices
        let opt := { opt with ListOptions := { opt.ListOptions with Page := resp.NextPage } }
        orgLoop P targetOrg fuel s opt allRepos requests notices

/-- What `GetOrgRepos` and `GetUserRepos` return after their loop: the error,
or `c.filter(allRepos), nil`. -/
def finish (topic : List Str → Bool) (env : Env) :
    Outcome (List Repository) → Outcome (List Repo)
  | .ok allRepos =>
    match filter topic env allRepos with
    | some repoData => .ok repoData
    | none => .panicked
  | .error err => .error err
  | .panicked => .panicked

/-- The page fetching of `GetOrgRepos`: the options of lines 36-39 and the
loop started with the nil slice. -/
def fetchOrgRepos {σ : Type} (P : Platform σ) (c : Github) (fuel : Nat) (s : σ)
    (targetOrg : Str) : Option (Fetch σ RepositoryListByOrgOptions) :=
  let opt : RepositoryListByOrgOptions :=
    { Type_ := "all".toList, ListOptions := { PerPage := c.perPage } }
  orgLoop P targetOrg fuel s opt [] [] []

/-- Method `GetOrgRepos` of `Github`. -/
def GetOrgRepos {σ : Type} (P : Platform σ) (topic : List Str → Bool) (env : Env)
    (c : Github) (fuel : Nat) (s : σ) (targetOrg : Str) : Option (Outcome (List Repo)) :=
  (fetchOrgRepos P c fuel s targetOrg).map fun run => finish topic env run.outcome

/-- Lines 96-104 of `GetUserRepos`: the loop keeping the records whose owner
type is `"User"`; `*repo.Owner.Type` panics on a `nil` owner or type. -/
def keepUserOwned : List Repository → List Repository → Option (List Repository)
  | userRepos, [] => some userRepos
  | userRepos, repo :: rest =>
    match repo.Owner.bind (·.Type_) with
    | none => none
    | some ownerType =>
      if ownerType = "User".toList then keepUserOwned (userRepos ++ [repo]) rest
      else keepUserOwned userRepos rest

/-- The `for` loop of `GetUserRepos` (lines 86-112), bounded like `orgLoop`. -/
def userLoop {σ : Type} (P : Platform σ) (targetUser : Str) :
    Nat → σ → RepositoryListOptions → List Repository →
    List (Str × RepositoryListOptions) → List Str →
    Option (Fetch σ RepositoryListOptions)
  | 0, _, _, _, _, _ => none
  | fuel + 1, s, opt, allRepos, requests, notices =>
    let requests := requests ++ [(targetUser, opt)]
    match P.List s targetUser opt with
    | (s, .error err) => some ⟨s, requests, notices, .error err⟩
    | (s, .ok (repos, resp)) =>
      match (if targetUser = [] then keepUserOwned [] repos else some repos) with
      | none => some ⟨s, requests, notices, .panicked⟩
      | some repos =>
        let allRepos := allRepos ++ repos
        if resp.NextPage = 0 then some ⟨s, requests, notices, .ok allRepos⟩
        else
          let opt := { opt with ListOptions := { opt.ListOptions with Page := resp.NextPage } }
          userLoop P targetUser fuel s opt allRepos requests notices

/-- The page fetching of `GetUserRepos` (lines 67-112): the lookup of the
authenticated user, the switch to the empty name, the base address, the
options and the loop. -/
def fetchUserRepos {σ : Type} (P : Platform σ) (env : Env) (c : Github) (fuel : Nat)
    (s : σ) (targetUser : Str) : Option (Fetch σ RepositoryListOptions) :=
  match P.UsersGet s [] with
  | (s, userToken) =>
    let own : Bool := targetUser = GetLogin userToken
    let notices := if own then [ownReposNotice] else []
    let targetUser := if own then [] else targetUser
    let s := if env.GHORG_SCM_BASE_URL ≠ [] then P.SetBaseURL s env.GHORG_SCM_BASE_URL else s
    let opt : RepositoryListOptions :=
      { Visibility := "all".toList, ListOptions := { PerPage := c.perPage } }
    userLoop P targetUser fuel s opt [] [] notices

/-- Method `GetUserRepos` of `Github`. -/
def GetUserRepos {σ : Type} (P : Platform σ) (topic : List Str → Bool) (env : Env)
    (c : Github) (fuel : Nat) (s : σ) (targetUser : Str) : Option (Outcome (List Repo)) :=
  (fetchUserRepos P env c fuel s targetUser).map fun run => finish topic env run.outcome

/-! ## `NewClient` -/

/-- The `*http.Client` made by `oauth2.NewClient` from a static token source:
what matters of it is the token it sends. -/
structure TokenClient where
  AccessToken : Str := []
deriving DecidableEq

/-- The two constructors of go-github, which are not part of this file:
`NewClient(tc)` and `NewEnterpriseClient(baseURL, uploadURL, tc)`; the latter
returns `(c, err)`, of which `NewClient` of `Github` keeps `c` only. -/
structure Constructors (σ : Type) where
  NewClient : TokenClient → σ
  NewEnterpriseClient : Str → Str → TokenClient → σ × Option GoError

/-- Method `NewClient` of `Github`: the client handle, the adapter and the
returned error (`none` is `nil`). -/
def NewClient {σ : Type} (K : Constructors σ) (env : Env) : (σ × Github) × Option GoError :=
  let tc : TokenClient := { AccessToken := env.GHORG_GITHUB_TOKEN }
  let baseURL := env.GHORG_SCM_BASE_URL
  let c : σ :=
    if baseURL ≠ [] then (K.NewEnterpriseClient baseURL baseURL tc).1
    else K.NewClient tc
  let client : Github := { perPage := 100 }
  ((c, client), none)

/-- Method `GetType` of `Github`. -/
def GetType : Str := "github".toList

/-! ## Notions used to state the properties -/

/-- The three exclusion rules of `filter` taken together (lines 149-163): the
record is not skipped as archived, not skipped as a fork, and its topics
match. -/
def passes (topic : List Str → Bool) (env : Env) (r : Repository) : Bool :=
  !(decide (env.GHORG_SKIP_ARCHIVED = "true".toList) && r.Archived == some true) &&
  !(decide (env.GHORG_SKIP_FORKS = "true".toList) && r.Fork == some true) &&
  topic r.Topics

/-- The entity that `filter` builds from a record once its name and the two
addresses are known (lines 165-187). -/
def entity (env : Env) (r : Repository) (name url clone : Str) : Repo :=
  { Name := name, URL := url, CloneURL := clone, CloneBranch := cloneBranch env r,
    IsWiki := false }

/-- Whether `filter` appends a wiki entity for the record (line 189). -/
def wantsWiki (env : Env) (r : Repository) : Bool :=
  r.GetHasWiki && decide (env.GHORG_CLONE_WIKI = "true".toList)

/-- The owner type a record carries, if it carries one. -/
def ownerType (r : Repository) : Option Str := r.Owner.bind (·.Type_)

/-- The options `GetOrgRepos` sends for the page `page`. -/
def orgOptions (perPage page : Int) : RepositoryListByOrgOptions :=
  { Type_ := "all".toList, ListOptions := { Page := page, PerPage := perPage } }

/-- The options `GetUserRepos` sends for the page `page`. -/
def userOptions (perPage page : Int) : RepositoryListOptions :=
  { Visibility := "all".toList, ListOptions := { Page := page, PerPage := perPage } }

/-- From the state `s` and the cursor `page` on, the platform serves exactly
the listed pages to `call`: each answer but the last carries a next-page
cursor that is not zero and leads to the following page, and the last answer
carries the cursor zero. No page at all is not a service. -/
def Serves {σ : Type} (call : σ → Int → σ × Listing) : σ → Int → List (List Repository) → Prop
  | _, _, [] => False
  | s, page, [repos] => ∃ s1, call s page = (s1, .ok (repos, { NextPage := 0 }))
  | s, page, repos :: following :: more =>
    ∃ s1 next, next ≠ 0 ∧ call s page = (s1, .ok (repos, { NextPage := next })) ∧
      Serves call s1 next (following :: more)

/-! ## Data for the examples -/

/-- The topic predicate that accepts every record (no topic configured). -/
def anyTopic : List Str → Bool := fun _ => true

/-- An environment for the examples: HTTPS protocol, token `T`, wiki cloning
and both skip rules enabled. -/
def httpsEnv : Env :=
  { GHORG_CLONE_PROTOCOL := "https".toList, GHORG_GITHUB_TOKEN := "T".toList,
    GHORG_CLONE_WIKI := "true".toList, GHORG_SKIP_ARCHIVED := "true".toList,
    GHORG_SKIP_FORKS := "true".toList }

/-- An environment with nothing set: the clone protocol is then not HTTPS. -/
def unsetEnv : Env := {}

/-- A record as the platform reports it, with every field present. -/
def record (name : String) (archived fork wiki : Bool) (branch : String) : Repository :=
  { Name := some name.toList, Archived := some archived, Fork := some fork,
    DefaultBranch := some branch.toList,
    CloneURL := some ("https://example.com/org/" ++ name ++ ".git").toList,
    SSHURL := some ("git@example.com:org/" ++ name ++ ".git").toList,
    HasWiki := some wiki, Owner := some { Type_ := some "User".toList } }

/-- Four records: a plain one with a wiki, an archived one, a fork, and one
without a reported default branch name. -/
def sampleRecords : List Repository :=
  [record "alpha" false false true "main", record "old" true false true "main",
   record "copy" false true false "main", record "beta" false false false ""]

/-- Constructors for the examples: the handle records the base address and
the token it was made with. -/
def recordingConstructors : Constructors (Str × Str) where
  NewClient := fun tc => ("https://api.github.com/".toList, tc.AccessToken)
  NewEnterpriseClient := fun baseURL _ tc => ((baseURL, tc.AccessToken), none)

/-- A platform for the examples. Its state counts the calls made. It serves
three pages under the cursors 0, 2 and 3, to any organisation and to the
authenticated user (empty name); the authenticated login is `me`. -/
def threePages : Platform Nat where
  ListByOrg := fun n _ opt =>
    (n + 1,
      if opt.ListOptions.Page = 0 then
        .ok ([record "a" false false false "main", record "b" false false false "main"],
          { NextPage := 2 })
      else if opt.ListOptions.Page = 2 then .ok ([record "c" false false false "main"], { NextPage := 3 })
      else if opt.ListOptions.Page = 3 then .ok ([record "a" false false false "main"], { NextPage := 0 })
      else .error "404".toList)
  List := fun n user opt =>
    (n + 1,
      if user ≠ [] then .error "404".toList
      else if opt.ListOptions.Page = 0 then
        .ok ([record "a" false false false "main",
              { record "team" false false false "main" with
                Owner := some { Type_ := some "Organization".toList } }],
          { NextPage := 2 })
      else if opt.ListOptions.Page = 2 then
        .ok ([{ record "corp" false false false "main" with
                Owner := some { Type_ := some "Organization".toList } }], { NextPage := 3 })
      else if opt.ListOptions.Page = 3 then .ok ([record "b" false false false "main"], { NextPage := 0 })
      else .error "404".toList)
  UsersGet := fun n _ => (n + 1, some { Login := some "me".toList, Type_ := some "User".toList })
  SetBaseURL := fun n _ => n

/-! ## Facts about the `strings` functions -/

theorem Index_isPrefixOf (s sep : Str) (h : sep.isPrefixOf s = true) :
    strings.Index s sep = some 0 := by
  unfold strings.Index
  simp [h]

theorem Index_eq_none_iff (s sep : Str) : strings.Index s sep = none ↔ ¬ sep <:+: s := by
  induction s with
  | nil =>
    unfold strings.Index
    by_cases h : sep.isPrefixOf [] = true
    · simp only [h, if_true]
      have : sep = [] := by simpa using h
      simp [this]
    · simp only [h]
      have : sep ≠ [] := by simpa using h
      simp [this]
  | cons c t ih =>
    unfold strings.Index
    by_cases h : sep.isPrefixOf (c :: t) = true
    · simp only [h, if_true]
      have hp : sep <+: c :: t := List.isPrefixOf_iff_prefix.mp h
      simp [hp.isInfix]
    · simp only [h]
      have hp : ¬ sep <+: c :: t := fun hp => h (List.isPrefixOf_iff_prefix.mpr hp)
      simp only [Bool.false_eq_true, if_false, Option.map_eq_none', ih, List.infix_cons_iff, hp,
        false_or]

theorem Contains_iff (s sep : Str) : strings.Contains s sep = true ↔ sep <:+: s := by
  unfold strings.Contains
  rw [← not_iff_not, ← Index_eq_none_iff]
  cases strings.Index s sep <;> simp

theorem splitLoop_free (n : Nat) (s sep : Str) (h : ¬ sep <:+: s) :
    strings.splitLoop n s sep = [s] := by
  cases n with
  | zero => rfl
  | succ n => simp [strings.splitLoop, (Index_eq_none_iff s sep).mpr h]

theorem Split_free (s sep : Str) (h : ¬ sep <:+: s) : strings.Split s sep = [s] :=
  splitLoop_free _ _ _ h

theorem Split_scheme_free (rest sep : Str) (hsep : sep ≠ []) (h : ¬ sep <:+: rest) :
    strings.Split (sep ++ rest) sep = [[], rest] := by
  unfold strings.Split
  obtain ⟨n, hn⟩ : ∃ n, (sep ++ rest).length = n + 1 := by
    cases sep with
    | nil => exact absurd rfl hsep
    | cons c t => exact ⟨(t ++ rest).length, by simp⟩
  rw [hn]
  have hi : strings.Index (sep ++ rest) sep = some 0 :=
    Index_isPrefixOf _ _ (List.isPrefixOf_iff_prefix.mpr ( List.prefix_append sep rest))
  simp [strings.splitLoop, hi, splitLoop_free _ _ _ h]

theorem addToken_single (rest token : Str) (h : ¬ httpsScheme <:+: rest) :
    addTokenToHTTPSCloneURL (httpsScheme ++ rest) token
      = some ("https://".toList ++ token ++ "@".toList ++ rest) := by
  unfold addTokenToHTTPSCloneURL
  rw [Split_scheme_free rest httpsScheme (by decide) h]
  rfl

theorem addToken_free (url token : Str) (h : ¬ httpsScheme <:+: url) :
    addTokenToHTTPSCloneURL url token = none := by
  unfold addTokenToHTTPSCloneURL
  rw [Split_free url httpsScheme h]
  rfl

theorem addToken_isSome_iff (url token : Str) :
    (addTokenToHTTPSCloneURL url token).isSome = true ↔ httpsScheme <:+: url := by
  constructor
  · intro h
    by_contra hc
    rw [addToken_free url token hc] at h
    exact absurd h (by simp)
  · intro h
    have hi : strings.Index url httpsScheme ≠ none := by
      rw [Ne, Index_eq_none_iff]; exact not_not.mpr h
    obtain ⟨m, hm⟩ := Option.ne_none_iff_exists'.mp hi
    obtain ⟨n, hn⟩ : ∃ n, url.length = n + 1 := by
      cases url with
      | nil => exact absurd h (by decide)
      | cons c t => exact ⟨t.length, rfl⟩
    unfold addTokenToHTTPSCloneURL strings.Split
    rw [hn]
    cases n with
    | zero => simp [strings.splitLoop, hm]
    | succ k =>
      simp only [strings.splitLoop, hm]
      cases strings.Index (List.drop (m + httpsScheme.length) url) httpsScheme <;> simp

theorem addToken_some_ne_nil (url token clone : Str)
    (h : addTokenToHTTPSCloneURL url token = some clone) : url ≠ [] ∧ clone ≠ [] := by
  constructor
  · rintro rfl
    have h0 : addTokenToHTTPSCloneURL [] token = none := rfl
    rw [h0] at h
    exact absurd h (by simp)
  · simp only [addTokenToHTTPSCloneURL] at h
    rcases hp : (strings.Split url httpsScheme).get? 1 with _ | piece
    · rw [hp] at h; exact absurd h (by simp)
    · rw [hp] at h
      simp only [Option.map_some', Option.some.injEq] at h
      rw [← h]
      simp

theorem Replace1_ne_nil (s old new : Str) (hs : s ≠ []) (hnew : new ≠ []) :
    strings.Replace1 s old new ≠ [] := by
  unfold strings.Replace1
  cases hi : strings.Index s old with
  | none => simpa using hs
  | some m => simp [hnew]

/-- More iterations than the length of the text do not change the result of
the splitting loop, so the bound in `Split` cuts nothing short. -/
theorem splitLoop_enough (sep : Str) (hsep : sep ≠ []) :
    ∀ (n m : Nat) (s : Str), s.length ≤ n → s.length ≤ m →
      strings.splitLoop n s sep = strings.splitLoop m s sep := by
  have hidx : strings.Index [] sep = none := by
    rw [Index_eq_none_iff]
    intro h
    exact hsep (List.eq_nil_of_infix_nil h)
  have hnil : ∀ k, strings.splitLoop k [] sep = [[]] := by
    intro k
    cases k with
    | zero => rfl
    | succ k => simp [strings.splitLoop, hidx]
  have hlen : 0 < sep.length := List.length_pos.mpr hsep
  intro n
  induction n with
  | zero =>
    intro m s hn _
    have : s = [] := List.length_eq_zero.mp (Nat.le_zero.mp hn)
    subst this
    rw [hnil, hnil]
  | succ n ih =>
    intro m s hn hm
    cases m with
    | zero =>
      have : s = [] := List.length_eq_zero.mp (Nat.le_zero.mp hm)
      subst this
      rw [hnil, hnil]
    | succ m =>
      simp only [strings.splitLoop]
      cases strings.Index s sep with
      | none => rfl
      | some k =>
        simp only
        rw [ih m (s.drop (k + sep.length)) (by rw [List.length_drop]; omega)
          (by rw [List.length_drop]; omega)]

/-! ## Facts about `filter` -/

theorem filterIter_append (topic : List Str → Bool) (env : Env) (acc : List Repo)
    (r : Repository) :
    filterIter topic env acc r = (filterIter topic env [] r).map (acc ++ ·) := by
  unfold filterIter
  rcases skipArchived env r with _ | _ | _ <;> rcases skipFork env r with _ | _ | _ <;>
  cases topic r.Topics <;> rcases normalize env r with _ | e <;> simp
  all_goals split <;> simp

theorem filterLoop_eq (topic : List Str → Bool) (env : Env) (rs : List Repository) :
    ∀ acc out, filterLoop topic env acc rs = some out ↔
      ∃ blocks, List.Forall₂ (fun r b => filterIter topic env [] r = some b) rs blocks ∧
        out = acc ++ blocks.flatten := by
  induction rs with
  | nil =>
    intro acc out
    simp [filterLoop, eq_comm]
  | cons r rs ih =>
    intro acc out
    rw [filterLoop, filterIter_append]
    constructor
    · intro h
      rcases hb : filterIter topic env [] r with _ | b
      · rw [hb] at h; exact absurd h (by simp)
      · rw [hb] at h
        simp only [Option.map_some', Option.some_bind] at h
        obtain ⟨blocks, hF, rfl⟩ := (ih _ _).mp h
        exact ⟨b :: blocks, List.Forall₂.cons hb hF, by simp⟩
    · rintro ⟨blocks, hF, rfl⟩
      cases hF with
      | cons hb hF =>
        rw [hb]
        simp only [Option.map_some', Option.some_bind]
        exact (ih _ _).mpr ⟨_, hF, by simp⟩

theorem filter_eq (topic : List Str → Bool) (env : Env) (rs : List Repository)
    (out : List Repo) :
    filter topic env rs = some out ↔
      ∃ blocks, List.Forall₂ (fun r b => filterIter topic env [] r = some b) rs blocks ∧
        out = blocks.flatten := by
  simpa using filterLoop_eq topic env rs [] out

theorem normalize_some (env : Env) (r : Repository) (e : Repo) (h : normalize env r = some e) :
    ∃ name url clone, r.Name = some name ∧ e = entity env r name url clone ∧
      if env.GHORG_CLONE_PROTOCOL = "https".toList then
        r.CloneURL = some url ∧ addTokenToHTTPSCloneURL url env.GHORG_GITHUB_TOKEN = some clone
      else r.SSHURL = some url ∧ clone = url := by
  unfold normalize at h
  rcases hn : r.Name with _ | name
  · rw [hn] at h; exact absurd h (by simp)
  · rw [hn] at h
    simp only [Option.some_bind] at h
    by_cases hp : env.GHORG_CLONE_PROTOCOL = "https".toList
    · simp only [hp, if_true] at h ⊢
      rcases hc : r.CloneURL with _ | url
      · rw [hc] at h; exact absurd h (by simp)
      · rw [hc] at h
        simp only [Option.some_bind] at h
        rcases ht : addTokenToHTTPSCloneURL url env.GHORG_GITHUB_TOKEN with _ | clone
        · rw [ht] at h; exact absurd h (by simp)
        · rw [ht] at h
          simp only [Option.map_some', Option.some.injEq] at h
          exact ⟨name, url, clone, rfl, h.symm, rfl, ht⟩
    · simp only [hp, if_false] at h ⊢
      rcases hc : r.SSHURL with _ | url
      · rw [hc] at h; exact absurd h (by simp)
      · rw [hc] at h
        simp only [Option.map_some', Option.some.injEq] at h
        exact ⟨name, url, url, rfl, h.symm, rfl, rfl⟩

theorem passes_of_skipArchived (topic : List Str → Bool) (env : Env) (r : Repository)
    (h : skipArchived env r = some true) : passes topic env r = false := by
  unfold skipArchived at h
  unfold passes
  by_cases ha : env.GHORG_SKIP_ARCHIVED = "true".toList
  · simp only [ha, if_true] at h
    simp [ha, h]
  · rw [if_neg ha] at h
    exact absurd h (by simp)

theorem passes_of_skipFork (topic : List Str → Bool) (env : Env) (r : Repository)
    (h : skipFork env r = some true) : passes topic env r = false := by
  unfold skipFork at h
  unfold passes
  by_cases hf : env.GHORG_SKIP_FORKS = "true".toList
  · simp only [hf, if_true] at h
    simp [hf, h]
  · rw [if_neg hf] at h
    exact absurd h (by simp)

theorem passes_of_kept (topic : List Str → Bool) (env : Env) (r : Repository)
    (ha : skipArchived env r = some false) (hf : skipFork env r = some false) :
    passes topic env r = topic r.Topics := by
  unfold skipArchived at ha
  unfold skipFork at hf
  unfold passes
  by_cases h1 : env.GHORG_SKIP_ARCHIVED = "true".toList <;>
  by_cases h2 : env.GHORG_SKIP_FORKS = "true".toList <;>
  simp_all

theorem appended_eq (env : Env) (r : Repository) (e : Repo) :
    (if (r.GetHasWiki && decide (env.GHORG_CLONE_WIKI = "true".toList)) = true then
        ([] ++ [e]) ++ [wikiOf e] else [] ++ [e])
      = e :: (if wantsWiki env r then [wikiOf e] else []) := by
  unfold wantsWiki
  split <;> simp

/-- What one iteration of `filter` appends: nothing for a record that fails a
filter, and otherwise the entity, followed by its wiki entity when one is
wanted. -/
theorem block_cases (topic : List Str → Bool) (env : Env) (r : Repository) (b : List Repo)
    (h : filterIter topic env [] r = some b) :
    (passes topic env r = false ∧ b = []) ∨
    (passes topic env r = true ∧ ∃ e, normalize env r = some e ∧
      b = e :: (if wantsWiki env r then [wikiOf e] else [])) := by
  unfold filterIter at h
  rcases hA : skipArchived env r with _ | _ | _
  · rw [hA] at h; exact absurd h (by simp)
  · rw [hA] at h
    simp only [Option.some_bind, Bool.false_eq_true, if_false] at h
    rcases hK : skipFork env r with _ | _ | _
    · rw [hK] at h; exact absurd h (by simp)
    · rw [hK] at h
      simp only [Option.some_bind, Bool.false_eq_true, if_false] at h
      rw [passes_of_kept topic env r hA hK]
      cases hT : topic r.Topics
      · rw [hT] at h
        simp only [Bool.not_false, if_true, Option.some.injEq] at h
        exact Or.inl ⟨rfl, h.symm⟩
      · rw [hT] at h
        simp only [Bool.not_true, Bool.false_eq_true, if_false] at h
        rcases hN : normalize env r with _ | e
        · rw [hN] at h; exact absurd h (by simp)
        · rw [hN] at h
          simp only [Option.map_some', Option.some.injEq] at h
          refine Or.inr ⟨rfl, e, rfl, ?_⟩
          rw [← h]
          exact appended_eq env r e
    · rw [hK] at h
      simp only [Option.some_bind, if_true, Option.some.injEq] at h
      exact Or.inl ⟨passes_of_skipFork topic env r hK, h.symm⟩
  · rw [hA] at h
    simp only [Option.some_bind, if_true, Option.some.injEq] at h
    exact Or.inl ⟨passes_of_skipArchived topic env r hA, h.symm⟩

theorem normalize_isWiki (env : Env) (r : Repository) (e : Repo)
    (h : normalize env r = some e) : e.IsWiki = false := by
  obtain ⟨name, url, clone, -, rfl, -⟩ := normalize_some env r e h
  rfl

theorem normalize_name (env : Env) (r : Repository) (e : Repo)
    (h : normalize env r = some e) : r.Name = some e.Name := by
  obtain ⟨name, url, clone, hn, rfl, -⟩ := normalize_some env r e h
  exact hn

theorem normalize_branch (env : Env) (r : Repository) (e : Repo)
    (h : normalize env r = some e) : e.CloneBranch = cloneBranch env r := by
  obtain ⟨name, url, clone, -, rfl, -⟩ := normalize_some env r e h
  rfl

/-- Every entity of the output stems from a record of the input that passes
the filters: it is the entity of that record or the wiki entity made from
it. -/
theorem mem_filter_output (topic : List Str → Bool) (env : Env) (rs : List Repository)
    (out : List Repo) (h : filter topic env rs = some out) (e : Repo) (he : e ∈ out) :
    ∃ r ∈ rs, ∃ e0, passes topic env r = true ∧ normalize env r = some e0 ∧
      (e = e0 ∨ (wantsWiki env r = true ∧ e = wikiOf e0)) := by
  obtain ⟨blocks, hF, rfl⟩ := (filter_eq topic env rs out).mp h
  induction hF with
  | nil => simp at he
  | @cons r b rs blocks hb _ ih =>
    rw [List.flatten_cons, List.mem_append] at he
    rcases he with he | he
    · rcases block_cases topic env r b hb with ⟨-, rfl⟩ | ⟨hp, e0, hn, rfl⟩
      · simp at he
      · refine ⟨r, List.mem_cons_self _ _, e0, hp, hn, ?_⟩
        rcases List.mem_cons.mp he with rfl | he
        · exact Or.inl rfl
        · cases hw : wantsWiki env r
          · rw [hw] at he; simp at he
          · rw [hw] at he
            simp only [if_true, List.mem_singleton] at he
            exact Or.inr ⟨rfl, he⟩
    · obtain ⟨r0, hr0, rest⟩ := ih ((filter_eq topic env _ _).mpr ⟨_, ‹_›, rfl⟩) he
      exact ⟨r0, List.mem_cons_of_mem _ hr0, rest⟩

/-- The entities of the output that are not wiki entities correspond, one to
one and in order, to the records that pass the filters. -/
theorem nonwiki_map {β : Type} (topic : List Str → Bool) (env : Env) (f : Repo → β)
    (g : Repository → β) (hfg : ∀ r e, normalize env r = some e → f e = g r)
    (rs : List Repository) (out : List Repo) (h : filter topic env rs = some out) :
    (out.filter fun e => !e.IsWiki).map f = (rs.filter (passes topic env)).map g := by
  obtain ⟨blocks, hF, rfl⟩ := (filter_eq topic env rs out).mp h
  clear h
  induction hF with
  | nil => rfl
  | @cons r b rs blocks hb _ ih =>
    rw [List.flatten_cons, List.filter_append, List.map_append, ih]
    rcases block_cases topic env r b hb with ⟨hp, rfl⟩ | ⟨hp, e0, hn, rfl⟩
    · simp [List.filter_cons, hp]
    · have h0 : e0.IsWiki = false := normalize_isWiki env r e0 hn
      have h1 : (wikiOf e0).IsWiki = true := rfl
      cases hw : wantsWiki env r <;>
        simp [List.filter_cons, hp, h0, h1, hfg r e0 hn]

theorem filter_length_le (topic : List Str → Bool) (env : Env) (rs : List Repository)
    (out : List Repo) (h : filter topic env rs = some out) : out.length ≤ 2 * rs.length := by
  obtain ⟨blocks, hF, rfl⟩ := (filter_eq topic env rs out).mp h
  clear h
  induction hF with
  | nil => simp
  | @cons r b rs blocks hb _ ih =>
    rw [List.flatten_cons, List.length_append, List.length_cons]
    have hb2 : b.length ≤ 2 := by
      rcases block_cases topic env r b hb with ⟨-, rfl⟩ | ⟨-, e0, -, rfl⟩
      · simp
      · cases wantsWiki env r <;> simp
    omega

theorem filterLoop_isSome (topic : List Str → Bool) (env : Env) (rs : List Repository) :
    ∀ acc, (filterLoop topic env acc rs).isSome = true ↔
      ∀ r ∈ rs, (filterIter topic env [] r).isSome = true := by
  induction rs with
  | nil => intro acc; simp [filterLoop]
  | cons r rs ih =>
    intro acc
    rw [filterLoop, filterIter_append]
    rcases hb : filterIter topic env [] r with _ | b
    · simp [hb]
    · simp [hb, ih]

theorem filter_isSome (topic : List Str → Bool) (env : Env) (rs : List Repository) :
    (filter topic env rs).isSome = true ↔
      ∀ r ∈ rs, (filterIter topic env [] r).isSome = true :=
  filterLoop_isSome topic env rs []

theorem block_append (topic : List Str → Bool) (env : Env) (r : Repository) (b : List Repo)
    (h : filterIter topic env [] r = some b) (acc : List Repo) :
    filterIter topic env acc r = some (acc ++ b) := by
  rw [filterIter_append, h]
  rfl

theorem filterIter_isSome_of_present (topic : List Str → Bool) (env : Env) (r : Repository)
    (hr : r.Archived ≠ none ∧ r.Fork ≠ none ∧ r.Name ≠ none ∧ r.CloneURL ≠ none ∧
      r.SSHURL ≠ none) :
    (filterIter topic env [] r).isSome = true ↔
      (env.GHORG_CLONE_PROTOCOL = "https".toList → passes topic env r = true →
        ∃ url, r.CloneURL = some url ∧ httpsScheme <:+: url) := by
  obtain ⟨h1, h2, h3, h4, h5⟩ := hr
  obtain ⟨a, ha⟩ := Option.ne_none_iff_exists'.mp h1
  obtain ⟨f, hf⟩ := Option.ne_none_iff_exists'.mp h2
  obtain ⟨name, hname⟩ := Option.ne_none_iff_exists'.mp h3
  obtain ⟨curl, hcurl⟩ := Option.ne_none_iff_exists'.mp h4
  obtain ⟨surl, hsurl⟩ := Option.ne_none_iff_exists'.mp h5
  have hN : (normalize env r).isSome = true ↔
      (env.GHORG_CLONE_PROTOCOL = "https".toList → httpsScheme <:+: curl) := by
    unfold normalize
    rw [hname]
    simp only [Option.some_bind]
    by_cases hp : env.GHORG_CLONE_PROTOCOL = "https".toList
    · rw [if_pos hp, hcurl]
      simp only [Option.some_bind, Option.isSome_map']
      rw [addToken_isSome_iff]
      exact ⟨fun h _ => h, fun h => h hp⟩
    · rw [if_neg hp, hsurl]
      simp only [Option.map_some', Option.isSome_some, true_iff]
      exact fun h => absurd h hp
  obtain ⟨sa, hsa⟩ : ∃ sa, skipArchived env r = some sa := by
    unfold skipArchived; split
    · exact ⟨a, ha⟩
    · exact ⟨false, rfl⟩
  obtain ⟨sf, hsf⟩ : ∃ sf, skipFork env r = some sf := by
    unfold skipFork; split
    · exact ⟨f, hf⟩
    · exact ⟨false, rfl⟩
  unfold filterIter
  rw [hsa, hsf]
  cases sa
  · cases sf
    · rw [passes_of_kept topic env r hsa hsf]
      cases hT : topic r.Topics
      · simp
      · simp only [Option.some_bind, Bool.false_eq_true, if_false, Bool.not_true,
          Option.isSome_map', hN, hcurl, Option.some.injEq, exists_eq_left', forall_const]
    · simp [passes_of_skipFork topic env r hsf]
  · simp [passes_of_skipArchived topic env r hsa]

theorem filterLoop_drop_archived (topic : List Str → Bool) (env : Env)
    (hs : env.GHORG_SKIP_ARCHIVED = "true".toList) (rs : List Repository) :
    ∀ acc, filterLoop topic env acc rs =
      filterLoop topic env acc (rs.filter fun r => r.Archived != some true) := by
  induction rs with
  | nil => intro acc; rfl
  | cons r rs ih =>
    intro acc
    by_cases hA : r.Archived = some true
    · have hskip : filterIter topic env acc r = some acc := by
        unfold filterIter skipArchived
        simp [hs, hA]
      rw [filterLoop, hskip, Option.some_bind, ih acc]
      simp [List.filter_cons, hA]
    · have hk : (r.Archived != some true) = true := by simpa using hA
      rw [List.filter_cons, if_pos hk, filterLoop, filterLoop]
      congr 1
      funext acc2
      exact ih acc2

/-! ## Facts about the enumeration loops -/

theorem orgLoop_serves {σ : Type} (P : Platform σ) (org : Str) (perPage : Int)
    (pages : List (List Repository)) :
    ∀ (fuel : Nat) (s : σ) (page : Int) (allRepos : List Repository)
      (requests : List (Str × RepositoryListByOrgOptions)) (notices : List Str),
      Serves (fun s page => P.ListByOrg s org (orgOptions perPage page)) s page pages →
      pages.length ≤ fuel →
      ∃ run, orgLoop P org fuel s (orgOptions perPage page) allRepos requests notices = some run ∧
        run.outcome = .ok (allRepos ++ pages.flatten) ∧
        run.requests.length = requests.length + pages.length ∧
        (∀ q ∈ run.requests, q ∈ requests ∨ q.1 = org) := by
  induction pages with
  | nil => intro fuel s page allRepos requests notices h; exact absurd h id
  | cons repos more ih =>
    intro fuel s page allRepos requests notices h hfuel
    obtain ⟨fuel, rfl⟩ : ∃ k, fuel = k + 1 := ⟨fuel - 1, by simp at hfuel; omega⟩
    cases more with
    | nil =>
      obtain ⟨s1, hcall⟩ := h
      simp only at hcall
      refine ⟨⟨s1, requests ++ [(org, orgOptions perPage page)], notices,
        .ok (allRepos ++ repos)⟩, by simp only [orgLoop, hcall, if_true], ?_, ?_, ?_⟩
      · simp
      · simp
      · intro q hq
        simp only [List.mem_append, List.mem_singleton] at hq
        rcases hq with hq | rfl
        · exact Or.inl hq
        · exact Or.inr rfl
    | cons following more =>
      obtain ⟨s1, next, hnext, hcall, hrest⟩ := h
      simp only at hcall
      have hfuel2 : (following :: more).length ≤ fuel := by
        simp only [List.length_cons] at hfuel ⊢; omega
      obtain ⟨run, hrun, hout, hlen, hreq⟩ :=
        ih fuel s1 next (allRepos ++ repos) (requests ++ [(org, orgOptions perPage page)])
          (if (orgOptions perPage page).ListOptions.Page % 12 = 0 ∧
              (orgOptions perPage page).ListOptions.Page ≠ 0 then
            notices ++ [manyReposNotice] else notices) hrest hfuel2
      refine ⟨run, ?_, ?_, ?_, ?_⟩
      · simp only [orgLoop, hcall, if_neg hnext]
        exact hrun
      · rw [hout]; simp
      · rw [hlen]; simp only [List.length_append, List.length_cons, List.length_nil]; omega
      · intro q hq
        rcases hreq q hq with h1 | h1
        · simp only [List.mem_append, List.mem_singleton] at h1
          rcases h1 with h1 | rfl
          · exact Or.inl h1
          · exact Or.inr rfl
        · exact Or.inr h1

theorem keepUserOwned_eq (repos : List Repository)
    (h : ∀ r ∈ repos, ownerType r = some "User".toList ∨
      ownerType r = some "Organization".toList) :
    ∀ userRepos, keepUserOwned userRepos repos =
      some (userRepos ++ repos.filter fun r => ownerType r == some "User".toList) := by
  induction repos with
  | nil => intro userRepos; simp [keepUserOwned]
  | cons r rest ih =>
    intro userRepos
    have hrest : ∀ r ∈ rest, ownerType r = some "User".toList ∨
        ownerType r = some "Organization".toList :=
      fun x hx => h x (List.mem_cons_of_mem _ hx)
    unfold ownerType at h
    rcases h r (List.mem_cons_self _ _) with hr | hr
    · rw [keepUserOwned, hr]
      simp only [if_true]
      rw [ih hrest, List.filter_cons, if_pos (by unfold ownerType; rw [hr]; rfl)]
      simp
    · rw [keepUserOwned, hr]
      simp only
      rw [if_neg (by decide), ih hrest, List.filter_cons,
        if_neg (by unfold ownerType; rw [hr]; decide)]

theorem userLoop_serves {σ : Type} (P : Platform σ) (perPage : Int)
    (pages : List (List Repository)) :
    ∀ (fuel : Nat) (s : σ) (page : Int) (allRepos : List Repository)
      (requests : List (Str × RepositoryListOptions)) (notices : List Str),
      Serves (fun s page => P.List s [] (userOptions perPage page)) s page pages →
      (∀ repos ∈ pages, ∀ r ∈ repos, ownerType r = some "User".toList ∨
        ownerType r = some "Organization".toList) →
      pages.length ≤ fuel →
      ∃ run, userLoop P [] fuel s (userOptions perPage page) allRepos requests notices = some run ∧
        run.outcome = .ok (allRepos ++
          pages.flatten.filter fun r => ownerType r == some "User".toList) ∧
        run.requests.length = requests.length + pages.length ∧
        (∀ q ∈ run.requests, q ∈ requests ∨ q.1 = []) := by
  induction pages with
  | nil => intro fuel s page allRepos requests notices h; exact absurd h id
  | cons repos more ih =>
    intro fuel s page allRepos requests notices h howner hfuel
    obtain ⟨fuel, rfl⟩ : ∃ k, fuel = k + 1 := ⟨fuel - 1, by simp at hfuel; omega⟩
    have hkeep := keepUserOwned_eq repos (howner repos (List.mem_cons_self _ _)) []
    rw [List.nil_append] at hkeep
    cases more with
    | nil =>
      obtain ⟨s1, hcall⟩ := h
      simp only at hcall
      refine ⟨⟨s1, requests ++ [([], userOptions perPage page)], notices,
        .ok (allRepos ++ repos.filter fun r => ownerType r == some "User".toList)⟩,
        by simp only [userLoop, hcall, if_true, hkeep], ?_, ?_, ?_⟩
      · simp
      · simp
      · intro q hq
        simp only [List.mem_append, List.mem_singleton] at hq
        rcases hq with hq | rfl
        · exact Or.inl hq
        · exact Or.inr rfl
    | cons following more =>
      obtain ⟨s1, next, hnext, hcall, hrest⟩ := h
      simp only at hcall
      have hfuel2 : (following :: more).length ≤ fuel := by
        simp only [List.length_cons] at hfuel ⊢; omega
      obtain ⟨run, hrun, hout, hlen, hreq⟩ :=
        ih fuel s1 next (allRepos ++ repos.filter fun r => ownerType r == some "User".toList)
          (requests ++ [([], userOptions perPage page)]) notices hrest
          (fun p hp => howner p (List.mem_cons_of_mem _ hp)) hfuel2
      refine ⟨run, ?_, ?_, ?_, ?_⟩
      · simp only [userLoop, hcall, if_true, hkeep, if_neg hnext]
        exact hrun
      · rw [hout]; simp
      · rw [hlen]; simp only [List.length_append, List.length_cons, List.length_nil]; omega
      · intro q hq
        rcases hreq q hq with h1 | h1
        · simp only [List.mem_append, List.mem_singleton] at h1
          rcases h1 with h1 | rfl
          · exact Or.inl h1
          · exact Or.inr rfl
        · exact Or.inr h1

/-! ## The properties of the specification, C1 to C10 -/

/-- The example of the specification: the token `T` spliced into
`https://example.com/org/repo.git`. -/
theorem addToken_example :
    addTokenToHTTPSCloneURL "https://example.com/org/repo.git".toList "T".toList =
      some "https://T@example.com/org/repo.git".toList := by
  decide

/-- C1, failing input. An address that holds the scheme a second time is cut
off there: the token is spliced in, but everything from the second scheme on
is lost, while `URL` keeps the whole address. -/
theorem token_splice_cuts_at_second_scheme :
    addTokenToHTTPSCloneURL "https://mirror.example.com/https://example.com/org/repo.git".toList
        "T".toList = some "https://T@mirror.example.com/".toList ∧
    filter anyTopic httpsEnv
        [{ record "repo" false false false "" with
           CloneURL := some "https://mirror.example.com/https://example.com/org/repo.git".toList }] =
      some [{ Name := "repo".toList,
              URL := "https://mirror.example.com/https://example.com/org/repo.git".toList,
              CloneURL := "https://T@mirror.example.com/".toList,
              CloneBranch := "master".toList, IsWiki := false }] ∧
    "https://T@mirror.example.com/".toList ≠
      "https://".toList ++ "T".toList ++ "@".toList ++
        "mirror.example.com/https://example.com/org/repo.git".toList := by
  decide

/-- Where the address holds the scheme only at its start, `filter` builds the
entity with the token spliced in behind the scheme and `URL` untouched. -/
theorem normalize_single_scheme (env : Env) (r : Repository) (name rest : Str)
    (hp : env.GHORG_CLONE_PROTOCOL = "https".toList) (hn : r.Name = some name)
    (hu : r.CloneURL = some ("https://".toList ++ rest)) (hfree : ¬ httpsScheme <:+: rest) :
    normalize env r = some
      { Name := name, URL := "https://".toList ++ rest,
        CloneURL := "https://".toList ++ env.GHORG_GITHUB_TOKEN ++ "@".toList ++ rest,
        CloneBranch := cloneBranch env r, IsWiki := false } := by
  unfold normalize
  rw [hn]
  simp only [Option.some_bind]
  rw [if_pos hp, hu]
  simp only [Option.some_bind]
  have := addToken_single rest env.GHORG_GITHUB_TOKEN hfree
  unfold httpsScheme at this
  rw [this]
  rfl

/-- C2, failing input. For a repository named `org.github.io` the first
`.git` of the address is the one inside `.github.io`, and that one is
replaced: the wiki addresses are not the parent addresses with the trailing
`.git` turned into `.wiki.git`. -/
theorem wiki_address_replaces_first_git :
    filter anyTopic httpsEnv
        [{ record "org.github.io" false false true "main" with
           CloneURL := some "https://github.com/org/org.github.io.git".toList }] =
      some [{ Name := "org.github.io".toList,
              URL := "https://github.com/org/org.github.io.git".toList,
              CloneURL := "https://T@github.com/org/org.github.io.git".toList,
              CloneBranch := "main".toList, IsWiki := false },
            { Name := [],
              URL := "https://github.com/org/org.wiki.github.io.git".toList,
              CloneURL := "https://T@github.com/org/org.wiki.github.io.git".toList,
              CloneBranch := "master".toList, IsWiki := true }] ∧
    ".git".toList <:+ "https://T@github.com/org/org.github.io.git".toList ∧
    "https://T@github.com/org/org.wiki.github.io.git".toList ≠
      "https://T@github.com/org/org.github.io.git".toList.take
        ("https://T@github.com/org/org.github.io.git".toList.length - 4) ++ ".wiki.git".toList := by
  decide

/-- The example of the specification: the wiki entity of a parent with
`CloneURL` `https://T@example.com/org/repo.git`, whatever the parent's branch. -/
theorem wikiOf_example (name branch : Str) :
    wikiOf { Name := name, URL := "https://example.com/org/repo.git".toList,
             CloneURL := "https://T@example.com/org/repo.git".toList,
             CloneBranch := branch, IsWiki := false } =
      { Name := [], URL := "https://example.com/org/repo.wiki.git".toList,
        CloneURL := "https://T@example.com/org/repo.wiki.git".toList,
        CloneBranch := "master".toList, IsWiki := true } := by
  rfl

/-- The parts of the wiki entity that do not depend on text replacement. -/
theorem wikiOf_fields (e : Repo) :
    (wikiOf e).IsWiki = true ∧ (wikiOf e).CloneBranch = "master".toList ∧ (wikiOf e).Name = [] :=
  ⟨rfl, rfl, rfl⟩

/-- Where the first `.git` of an address is its ending, the replacement turns
that ending into `.wiki.git`. -/
theorem Replace1_at_end (stem old new : Str)
    (h : strings.Index (stem ++ old) old = some stem.length) :
    strings.Replace1 (stem ++ old) old new = stem ++ new := by
  unfold strings.Replace1
  rw [h]
  simp

/-- C3. Branch resolution precedence: the clone branches of the entities of the
output that are not wiki entities are, record by record in order, those of the
records that pass the filters, each resolved as: the override `GHORG_BRANCH` if
it is non-empty, else the default branch the record reports if that is
non-empty, else `master`. -/
theorem branch_resolution_precedence (topic : List Str → Bool) (env : Env)
    (rs : List Repository) (out : List Repo) (h : filter topic env rs = some out) :
    (out.filter fun e => !e.IsWiki).map (fun e => e.CloneBranch) =
      (rs.filter (passes topic env)).map fun r =>
        if env.GHORG_BRANCH ≠ [] then env.GHORG_BRANCH
        else if r.DefaultBranch.getD [] ≠ [] then r.DefaultBranch.getD []
        else "master".toList := by
  refine nonwiki_map topic env _ _ ?_ rs out h
  intro r e he
  rw [normalize_branch env r e he]
  unfold cloneBranch Repository.GetDefaultBranch
  by_cases h1 : env.GHORG_BRANCH = [] <;> by_cases h2 : r.DefaultBranch.getD [] = [] <;>
    simp [h1, h2]

/-- C3 on four records under HTTPS with no override: the reported branch `main`
is kept, and the record that reports no branch gets `master`. -/
theorem branch_resolution_precedence_witness :
    filter anyTopic httpsEnv sampleRecords ≠ none ∧
    ((filter anyTopic httpsEnv sampleRecords).getD []).map (fun e => (e.IsWiki, e.CloneBranch))
      = [(false, "main".toList), (true, "master".toList), (false, "master".toList)] ∧
    (((filter anyTopic httpsEnv sampleRecords).getD []).filter fun e => !e.IsWiki).map
        (fun e => e.CloneBranch) =
      (sampleRecords.filter (passes anyTopic httpsEnv)).map fun r =>
        if httpsEnv.GHORG_BRANCH ≠ [] then httpsEnv.GHORG_BRANCH
        else if r.DefaultBranch.getD [] ≠ [] then r.DefaultBranch.getD []
        else "master".toList :=
  ⟨by decide, by decide,
    branch_resolution_precedence anyTopic httpsEnv sampleRecords _ (by decide)⟩

/-- The three cases of the branch resolution side by side: with the override
`dev` every entity that is not a wiki entity gets `dev`, while the wiki entity
keeps `master`; without an override the reported branch `main` is used, and
`master` where none is reported. -/
theorem branch_cases_example :
    ((filter anyTopic { httpsEnv with GHORG_BRANCH := "dev".toList } sampleRecords).getD []).map
        (fun e => (e.IsWiki, e.CloneBranch)) =
      [(false, "dev".toList), (true, "master".toList), (false, "dev".toList)] ∧
    ((filter anyTopic httpsEnv sampleRecords).getD []).map (fun e => (e.IsWiki, e.CloneBranch)) =
      [(false, "main".toList), (true, "master".toList), (false, "master".toList)] := by
  decide

/-- C4. Filters compose by logical AND. For records whose `Archived`, `Fork`,
`Name` and address fields are present: `filter` returns a list exactly when,
under the HTTPS protocol, the address of every passing record contains the
scheme; the list it returns is made of one block per record, in order, the
block being what the record's iteration appends, and a block holds an entity
that is not a wiki entity if and only if the record is not (archived while
archived records are skipped), is not (a fork while forks are skipped) and has
matching topics; and when archived records are skipped, `filter` of the list
equals `filter` of the list without its archived records. -/
theorem filters_compose_by_and (topic : List Str → Bool) (env : Env) (rs : List Repository)
    (hpresent : ∀ r ∈ rs, r.Archived ≠ none ∧ r.Fork ≠ none ∧ r.Name ≠ none ∧
      r.CloneURL ≠ none ∧ r.SSHURL ≠ none) :
    ((filter topic env rs).isSome = true ↔
      ∀ r ∈ rs, env.GHORG_CLONE_PROTOCOL = "https".toList → passes topic env r = true →
        ∃ url, r.CloneURL = some url ∧ httpsScheme <:+: url) ∧
    (∀ out, filter topic env rs = some out →
      ∃ blocks, out = blocks.flatten ∧
        List.Forall₂ (fun r b =>
          (∀ acc, filterIter topic env acc r = some (acc ++ b)) ∧
          ((∃ e ∈ b, e.IsWiki = false) ↔
            (¬ (env.GHORG_SKIP_ARCHIVED = "true".toList ∧ r.Archived = some true) ∧
              ¬ (env.GHORG_SKIP_FORKS = "true".toList ∧ r.Fork = some true) ∧
              topic r.Topics = true))) rs blocks) ∧
    (env.GHORG_SKIP_ARCHIVED = "true".toList →
      filter topic env rs = filter topic env (rs.filter fun r => r.Archived != some true)) := by
  refine ⟨?_, ?_, ?_⟩
  · rw [filter_isSome]
    exact forall₂_congr fun r hr => filterIter_isSome_of_present topic env r (hpresent r hr)
  · intro out h
    obtain ⟨blocks, hF, rfl⟩ := (filter_eq topic env rs _).mp h
    refine ⟨blocks, rfl, ?_⟩
    refine hF.imp ?_
    intro r b hb
    refine ⟨block_append topic env r b hb, ?_⟩
    have hpass : passes topic env r = true ↔
        (¬ (env.GHORG_SKIP_ARCHIVED = "true".toList ∧ r.Archived = some true) ∧
          ¬ (env.GHORG_SKIP_FORKS = "true".toList ∧ r.Fork = some true) ∧
          topic r.Topics = true) := by
      unfold passes
      simp only [Bool.and_eq_true, Bool.not_eq_true', Bool.and_eq_false_iff, decide_eq_false_iff_not,
        beq_eq_false_iff_ne, ne_eq, not_and, and_assoc]
      constructor
      · rintro ⟨h1, h2, h3⟩
        exact ⟨fun ha => (h1.resolve_left (not_not.mpr ha)),
          fun hf => (h2.resolve_left (not_not.mpr hf)), h3⟩
      · rintro ⟨h1, h2, h3⟩
        exact ⟨(em _).symm.imp id h1, (em _).symm.imp id h2, h3⟩
    rw [← hpass]
    rcases block_cases topic env r b hb with ⟨hp, rfl⟩ | ⟨hp, e0, hn, rfl⟩
    · simp [hp]
    · simp only [hp, iff_true]
      exact ⟨e0, List.mem_cons_self _ _, normalize_isWiki env r e0 hn⟩
  · intro hs
    exact filterLoop_drop_archived topic env hs rs []

/-- C4 on four records with both skip rules enabled: the archived record and
the fork are dropped and the list is returned. -/
theorem filters_compose_by_and_witness :
    (∀ r ∈ sampleRecords, r.Archived ≠ none ∧ r.Fork ≠ none ∧ r.Name ≠ none ∧
      r.CloneURL ≠ none ∧ r.SSHURL ≠ none) ∧
    (filter anyTopic httpsEnv sampleRecords).isSome = true ∧
    filter anyTopic httpsEnv sampleRecords =
      filter anyTopic httpsEnv (sampleRecords.filter fun r => r.Archived != some true) :=
  ⟨by decide,
    (filters_compose_by_and anyTopic httpsEnv sampleRecords (by decide)).1.mpr (by decide),
    (filters_compose_by_and anyTopic httpsEnv sampleRecords (by decide)).2.2 rfl⟩

/-- C5. Pagination termination. If, from the first request (cursor 0) on, the
platform serves N pages to the organisation listing asked with type `all` and
the page size of the adapter, every answer but the last carrying a non-zero
next-page cursor and the last one the cursor 0, then `GetOrgRepos` ends
whenever it is allowed at least N iterations, it has then made exactly N page
requests, all for the same organisation, and the slice it has accumulated and
hands to `filter` is the concatenation of the N pages in page order. -/
theorem pagination_terminates {σ : Type} (P : Platform σ) (topic : List Str → Bool) (env : Env)
    (c : Github) (s : σ) (targetOrg : Str) (pages : List (List Repository))
    (hserve : Serves (fun s page => P.ListByOrg s targetOrg (orgOptions c.perPage page)) s 0 pages)
    (fuel : Nat) (hfuel : pages.length ≤ fuel) :
    ∃ run, fetchOrgRepos P c fuel s targetOrg = some run ∧
      run.requests.length = pages.length ∧
      (∀ q ∈ run.requests, q.1 = targetOrg) ∧
      run.outcome = .ok pages.flatten ∧
      GetOrgRepos P topic env c fuel s targetOrg =
        some (match filter topic env pages.flatten with
          | some repoData => .ok repoData
          | none => .panicked) := by
  obtain ⟨run, hrun, hout, hlen, hreq⟩ :=
    orgLoop_serves P targetOrg c.perPage pages fuel s 0 [] [] [] hserve hfuel
  have hfetch : fetchOrgRepos P c fuel s targetOrg = some run := hrun
  refine ⟨run, hfetch, by simpa using hlen, ?_, by simpa using hout, ?_⟩
  · intro q hq
    rcases hreq q hq with h | h
    · simp at h
    · exact h
  · unfold GetOrgRepos
    rw [hfetch, Option.map_some', hout]
    rfl

/-- C5 on a platform serving three pages under the cursors 0, 2 and 3: three
requests are made and the record `a`, which is on two pages, is kept twice. -/
theorem pagination_terminates_witness :
    ∃ run, fetchOrgRepos threePages { perPage := 100 } 5 0 "org".toList = some run ∧
      run.requests.length = 3 ∧
      run.state = 3 ∧
      run.outcome = .ok [record "a" false false false "main", record "b" false false false "main",
        record "c" false false false "main", record "a" false false false "main"] := by
  obtain ⟨run, h1, h2, -, h4, -⟩ :=
    pagination_terminates threePages anyTopic httpsEnv { perPage := 100 } 0 "org".toList
      [[record "a" false false false "main", record "b" false false false "main"],
       [record "c" false false false "main"], [record "a" false false false "main"]]
      ⟨1, 2, by decide, rfl, 2, 3, by decide, rfl, 3, rfl⟩ 5 (by decide)
  refine ⟨run, h1, h2, ?_, h4⟩
  have h5 : fetchOrgRepos threePages { perPage := 100 } 5 0 "org".toList =
      some ⟨3, _, _, _⟩ := rfl
  rw [h5] at h1
  cases h1
  rfl

/-- C6. Self-enumeration owner filtering. If the name passed to `GetUserRepos`
is the login of the authenticated user, and the platform serves N pages to the
listing asked with the empty name, every record of which carries the owner type
`User` or `Organization`, then `GetUserRepos` ends whenever it is allowed at
least N iterations, every one of its N requests is made with the empty name,
and the slice it has accumulated and hands to `filter` is made of exactly the
fetched records whose owner type is `User`, in their original order. -/
theorem self_enumeration_keeps_user_owned {σ : Type} (P : Platform σ)
    (topic : List Str → Bool) (env : Env) (c : Github) (s : σ) (targetUser : Str)
    (pages : List (List Repository))
    (hlogin : targetUser = GetLogin (P.UsersGet s []).2)
    (hserve : Serves (fun s page => P.List s [] (userOptions c.perPage page))
      (if env.GHORG_SCM_BASE_URL ≠ [] then P.SetBaseURL (P.UsersGet s []).1 env.GHORG_SCM_BASE_URL
        else (P.UsersGet s []).1) 0 pages)
    (howner : ∀ repos ∈ pages, ∀ r ∈ repos,
      (r.Owner.bind fun u => u.Type_) = some "User".toList ∨
      (r.Owner.bind fun u => u.Type_) = some "Organization".toList)
    (fuel : Nat) (hfuel : pages.length ≤ fuel) :
    ∃ run, fetchUserRepos P env c fuel s targetUser = some run ∧
      run.requests.length = pages.length ∧
      (∀ q ∈ run.requests, q.1 = []) ∧
      run.outcome = .ok (pages.flatten.filter fun r =>
        (r.Owner.bind fun u => u.Type_) == some "User".toList) ∧
      GetUserRepos P topic env c fuel s targetUser =
        some (match filter topic env (pages.flatten.filter fun r =>
            (r.Owner.bind fun u => u.Type_) == some "User".toList) with
          | some repoData => .ok repoData
          | none => .panicked) := by
  obtain ⟨run, hrun, hout, hlen, hreq⟩ :=
    userLoop_serves P c.perPage pages fuel _ 0 [] [] [ownReposNotice] hserve howner hfuel
  have hfetch : fetchUserRepos P env c fuel s targetUser = some run := by
    unfold fetchUserRepos
    rw [← hrun]
    simp only [hlogin, decide_True, if_true]
    rfl
  refine ⟨run, hfetch, by simpa using hlen, ?_, by simpa using hout, ?_⟩
  · intro q hq
    rcases hreq q hq with h | h
    · simp at h
    · exact h
  · unfold GetUserRepos
    rw [hfetch, Option.map_some', hout]
    rfl

/-- C6 on a platform serving three pages to the authenticated user `me`: the
two records owned by organisations are left out. -/
theorem self_enumeration_keeps_user_owned_witness :
    "me".toList = GetLogin (threePages.UsersGet 0 []).2 ∧
    ∃ run, fetchUserRepos threePages httpsEnv { perPage := 100 } 5 0 "me".toList = some run ∧
      run.requests.length = 3 ∧
      (∀ q ∈ run.requests, q.1 = []) ∧
      run.outcome = .ok [record "a" false false false "main", record "b" false false false "main"] := by
  refine ⟨rfl, ?_⟩
  obtain ⟨run, h1, h2, h3, h4, -⟩ :=
    self_enumeration_keeps_user_owned threePages anyTopic httpsEnv { perPage := 100 } 0 "me".toList
      [[record "a" false false false "main",
        { record "team" false false false "main" with
          Owner := some { Type_ := some "Organization".toList } }],
       [{ record "corp" false false false "main" with
          Owner := some { Type_ := some "Organization".toList } }],
       [record "b" false false false "main"]]
      rfl ⟨2, 2, by decide, rfl, 3, 3, by decide, rfl, 4, rfl⟩ (by decide) 5 (by decide)
  exact ⟨run, h1, h2, h3, h4⟩

/-- C7, counterexample. Under the HTTPS protocol a record whose address does
not begin with the scheme, but holds it further in, is not rejected: `filter`
returns an entity whose `CloneURL` lacks the text before the scheme. -/
theorem scheme_not_leading_is_accepted :
    ¬ httpsScheme <+: "git+https://example.com/org/repo.git".toList ∧
    filter anyTopic httpsEnv
        [{ record "repo" false false false "" with
           CloneURL := some "git+https://example.com/org/repo.git".toList }] =
      some [{ Name := "repo".toList, URL := "git+https://example.com/org/repo.git".toList,
              CloneURL := "https://T@example.com/org/repo.git".toList,
              CloneBranch := "master".toList, IsWiki := false }] := by
  decide

/-- C7, amended. Under the HTTPS protocol, for every record that passes the
filters and whose address holds no occurrence of the scheme at all,
`addTokenToHTTPSCloneURL` panics and so does `filter` on every list with that
record: no list is returned, hence no entity for the record. -/
theorem missing_scheme_panics (topic : List Str → Bool) (env : Env)
    (before after : List Repository) (r : Repository) (url : Str)
    (hp : env.GHORG_CLONE_PROTOCOL = "https".toList) (hu : r.CloneURL = some url)
    (hfree : ¬ httpsScheme <:+: url) (hpass : passes topic env r = true) :
    addTokenToHTTPSCloneURL url env.GHORG_GITHUB_TOKEN = none ∧
    filter topic env (before ++ r :: after) = none := by
  refine ⟨addToken_free url _ hfree, ?_⟩
  have hiter : filterIter topic env [] r = none := by
    rcases hb : filterIter topic env [] r with _ | b
    · rfl
    · exfalso
      rcases block_cases topic env r b hb with ⟨hq, -⟩ | ⟨-, e0, hn, -⟩
      · rw [hpass] at hq; exact absurd hq (by simp)
      · obtain ⟨name, url2, clone, -, -, hurl⟩ := normalize_some env r e0 hn
        rw [if_pos hp, hu] at hurl
        obtain ⟨h1, h2⟩ := hurl
        cases h1
        rw [addToken_free url _ hfree] at h2
        exact absurd h2 (by simp)
  rcases hf : filter topic env (before ++ r :: after) with _ | out
  · rfl
  · exfalso
    have hs : (filter topic env (before ++ r :: after)).isSome = true := by rw [hf]; rfl
    have := (filter_isSome topic env _).mp hs r (by simp)
    rw [hiter] at this
    exact absurd this (by simp)

/-- C7 as amended, on three records the second of which has an SSH-style text
as its HTTPS address. -/
theorem missing_scheme_panics_witness :
    addTokenToHTTPSCloneURL "git@example.com:org/repo.git".toList httpsEnv.GHORG_GITHUB_TOKEN
      = none ∧
    filter anyTopic httpsEnv
      ([record "alpha" false false true "main"] ++
        { record "repo" false false false "" with
          CloneURL := some "git@example.com:org/repo.git".toList }
        :: [record "beta" false false false ""]) = none :=
  missing_scheme_panics anyTopic httpsEnv _ _ _ _ rfl rfl (by decide) (by decide)

/-- C8, counterexample. With the clone protocol unset, a record whose SSH
address is the empty string yields an entity whose `CloneURL` and `URL` are
both empty. -/
theorem empty_ssh_address_gives_empty_urls :
    filter anyTopic unsetEnv [{ Name := some "repo".toList, SSHURL := some [] }] =
      some [{ Name := "repo".toList, URL := [], CloneURL := [],
              CloneBranch := "master".toList, IsWiki := false }] ∧
    ¬ ∀ e ∈ (filter anyTopic unsetEnv
        [{ Name := some "repo".toList, SSHURL := some [] }]).getD [],
      e.CloneURL ≠ [] ∧ e.URL ≠ [] := by
  decide

/-- C8, amended. Every entity of the list returned by `filter`, wiki entities
included, has a non-empty `CloneURL` and a non-empty `URL`, provided that,
when the clone protocol is not HTTPS, no record has an empty SSH address. -/
theorem urls_nonempty (topic : List Str → Bool) (env : Env) (rs : List Repository)
    (out : List Repo) (h : filter topic env rs = some out)
    (hssh : env.GHORG_CLONE_PROTOCOL ≠ "https".toList → ∀ r ∈ rs, r.SSHURL ≠ some []) :
    ∀ e ∈ out, e.CloneURL ≠ [] ∧ e.URL ≠ [] := by
  intro e he
  obtain ⟨r, hr, e0, -, hn, hcase⟩ := mem_filter_output topic env rs out h e he
  obtain ⟨name, url, clone, -, rfl, hurl⟩ := normalize_some env r e0 hn
  have hne : clone ≠ [] ∧ url ≠ [] := by
    by_cases hp : env.GHORG_CLONE_PROTOCOL = "https".toList
    · rw [if_pos hp] at hurl
      exact (addToken_some_ne_nil url _ clone hurl.2).symm
    · rw [if_neg hp] at hurl
      obtain ⟨hs, rfl⟩ := hurl
      have : clone ≠ [] := by
        rintro rfl
        exact hssh hp r hr hs
      exact ⟨this, this⟩
  rcases hcase with rfl | ⟨-, rfl⟩
  · exact hne
  · exact ⟨Replace1_ne_nil _ _ _ hne.1 (by decide), Replace1_ne_nil _ _ _ hne.2 (by decide)⟩

/-- C8 as amended, on four records under HTTPS. -/
theorem urls_nonempty_witness :
    filter anyTopic httpsEnv sampleRecords ≠ none ∧
    ∀ e ∈ (filter anyTopic httpsEnv sampleRecords).getD [], e.CloneURL ≠ [] ∧ e.URL ≠ [] :=
  ⟨by decide, urls_nonempty anyTopic httpsEnv sampleRecords _ (by decide)
    (fun hp => absurd rfl hp)⟩

/-- C9, counterexample. With no token in the environment `NewClient` returns a
client and the `nil` error. -/
theorem NewClient_without_token_succeeds :
    unsetEnv.GHORG_GITHUB_TOKEN = [] ∧
    NewClient recordingConstructors unsetEnv =
      ((("https://api.github.com/".toList, []), { perPage := 100 }), none) := by
  decide

/-- C9, amended. `NewClient` never returns an error: in every environment,
with or without a token, the error is `nil` and the adapter has page size
100. -/
theorem NewClient_never_fails {σ : Type} (K : Constructors σ) (env : Env) :
    (NewClient K env).2 = none ∧ (NewClient K env).1.2.perPage = 100 :=
  ⟨rfl, rfl⟩

/-- C10. Output structure and order. `filter` returns a list exactly when no
iteration panics, and the list it returns is the concatenation, in input
order, of one block per record, the block being what the record's iteration
appends: nothing if the record fails a filter, the entity alone if it passes
and no wiki entity is wanted, and the entity followed by the wiki entity made
from it if it passes, has a wiki and wiki cloning is enabled. Hence the names
of the entities that are not wiki entities are the names of the passing
records in order, and the output is at most twice as long as the input. -/
theorem filter_output_structure (topic : List Str → Bool) (env : Env)
    (rs : List Repository) :
    ((filter topic env rs).isSome = true ↔
      ∀ r ∈ rs, (filterIter topic env [] r).isSome = true) ∧
    ∀ out, filter topic env rs = some out →
      (∃ blocks, out = blocks.flatten ∧
        List.Forall₂ (fun r b =>
          (∀ acc, filterIter topic env acc r = some (acc ++ b)) ∧
          ((passes topic env r = false ∧ b = []) ∨
            (passes topic env r = true ∧
              ¬ (r.GetHasWiki = true ∧ env.GHORG_CLONE_WIKI = "true".toList) ∧
              ∃ e, b = [e] ∧ e.IsWiki = false ∧ r.Name = some e.Name) ∨
            (passes topic env r = true ∧
              (r.GetHasWiki = true ∧ env.GHORG_CLONE_WIKI = "true".toList) ∧
              ∃ e, b = [e, wikiOf e] ∧ e.IsWiki = false ∧ (wikiOf e).IsWiki = true ∧
                r.Name = some e.Name))) rs blocks) ∧
      (out.filter fun e => !e.IsWiki).map (fun e => some e.Name) =
        (rs.filter (passes topic env)).map (fun r => r.Name) ∧
      out.length ≤ 2 * rs.length := by
  refine ⟨filter_isSome topic env rs, ?_⟩
  intro out h
  refine ⟨?_, ?_, filter_length_le topic env rs out h⟩
  · obtain ⟨blocks, hF, rfl⟩ := (filter_eq topic env rs _).mp h
    refine ⟨blocks, rfl, hF.imp ?_⟩
    intro r b hb
    refine ⟨block_append topic env r b hb, ?_⟩
    rcases block_cases topic env r b hb with ⟨hp, rfl⟩ | ⟨hp, e0, hn, rfl⟩
    · exact Or.inl ⟨hp, rfl⟩
    · have hw : wantsWiki env r = true ↔
          (r.GetHasWiki = true ∧ env.GHORG_CLONE_WIKI = "true".toList) := by
        unfold wantsWiki
        simp only [Bool.and_eq_true, decide_eq_true_eq]
      by_cases hc : wantsWiki env r = true
      · refine Or.inr (Or.inr ⟨hp, hw.mp hc, e0, ?_, normalize_isWiki env r e0 hn, rfl,
          normalize_name env r e0 hn⟩)
        rw [if_pos hc]
      · refine Or.inr (Or.inl ⟨hp, fun hh => hc (hw.mpr hh), e0, ?_,
          normalize_isWiki env r e0 hn, normalize_name env r e0 hn⟩)
        rw [if_neg hc]
  · exact nonwiki_map topic env _ _ (fun r e he => (normalize_name env r e he).symm) rs out h

/-- C10 on four records: the wiki entity follows its parent `alpha`, and the
names are those of the passing records in order. -/
theorem filter_output_structure_witness :
    filter anyTopic httpsEnv sampleRecords ≠ none ∧
    ((filter anyTopic httpsEnv sampleRecords).getD []).map (fun e => (e.Name, e.IsWiki)) =
      [("alpha".toList, false), ([], true), ("beta".toList, false)] ∧
    ((filter anyTopic httpsEnv sampleRecords).getD []).length ≤ 2 * sampleRecords.length :=
  ⟨by decide, by decide,
    ((filter_output_structure anyTopic httpsEnv sampleRecords).2 _ (by decide)).2.2⟩

end Ghorg
